import Mathlib

/-!
Verification of the region-editing and audio-export core of the gap-gone
repository (src/utils/regionUtils.ts and src/utils/exportUtils.ts).

Times are modelled as rationals, sample values as rationals, JS arrays as
Lean lists.  `Array.prototype.sort` with the comparator
`(a, b) => a.start - b.start` is modelled by a stable insertion sort
(ECMAScript requires the sort to be stable and ascending with respect to
the comparator; the concrete algorithm is unobservable).
-/

namespace GapGone

/-- Model of the `Region` interface of regionUtils.ts: a half-open time
interval `[start, end)` in seconds. -/
@[ext]
structure Region where
  start : ℚ
  «end» : ℚ
deriving DecidableEq, Repr

/-- Stable insertion of `a` into `l`: `a` is placed after every leading
element that compares `≤ a`, so elements comparing equal to `a` keep
their original relative order (stability of `Array.prototype.sort`). -/
def insoBy (le : α → α → Bool) (a : α) : List α → List α
  | [] => [a]
  | b :: l => if le b a then b :: insoBy le a l else a :: b :: l

/-- Stable sort modelling `Array.prototype.sort(cmp)`. -/
def sortBy (le : α → α → Bool) (l : List α) : List α :=
  l.foldl (fun acc a => insoBy le a acc) []

/-- The comparator `(a, b) => a.start - b.start` of regionUtils.ts,
as a boolean "less or equal" test. -/
def regionLE (a b : Region) : Bool := a.start ≤ b.start

/-- The merge sweep of `mergeRegions` (regionUtils.ts lines 17-30):
`last` is the running region (`merged[merged.length - 1]`); a region whose
`start ≤ last.end` extends the running region, otherwise it is pushed. -/
def sweep (last : Region) : List Region → List Region
  | [] => [last]
  | c :: cs =>
    if c.start ≤ last.«end» then
      sweep ⟨last.start, max last.«end» c.«end»⟩ cs
    else
      last :: sweep c cs

/-- Sweep of a whole (already sorted) list; an empty list yields `[]`
(the `sorted.length === 0` guard of the source). -/
def sweepList : List Region → List Region
  | [] => []
  | a :: l => sweep a l

/-- Model of `mergeRegions` (regionUtils.ts lines 10-33): append the new
region, sort by `start`, then sweep. -/
def mergeRegions (regions : List Region) (newRegion : Region) : List Region :=
  sweepList (sortBy regionLE (regions ++ [newRegion]))

/-- The per-region fragment computation of `subtractRegion`
(regionUtils.ts lines 42-60). -/
def subFrag (subtract r : Region) : List Region :=
  if subtract.«end» ≤ r.start ∨ subtract.start ≥ r.«end» then
    [r]
  else
    (if r.start < subtract.start then [⟨r.start, subtract.start⟩] else []) ++
      (if r.«end» > subtract.«end» then [⟨subtract.«end», r.«end»⟩] else [])

/-- Model of `subtractRegion` (regionUtils.ts lines 39-63), written as the
source writes it: a loop pushing fragments onto a result accumulator. -/
def subtractRegion (regions : List Region) (subtract : Region) : List Region :=
  regions.foldl (fun result r => result ++ subFrag subtract r) []

/-- The RegionSet invariant of the specification: pairwise adjacent regions
satisfy `end < start` of the next (sorted with strict gaps), and every
region is proper (`start < end`). -/
def RegionInv (l : List Region) : Prop :=
  l.Chain' (fun a b => a.«end» < b.start) ∧ ∀ r ∈ l, r.start < r.«end»

/-- The set of time points covered by a region list (half-open intervals). -/
def covers (l : List Region) (x : ℚ) : Prop :=
  ∃ q ∈ l, q.start ≤ x ∧ x < q.«end»

/-- Subtraction as the specification describes it, region by region:
non-overlapping regions pass through, overlapping regions are replaced by
the left and right remainders. -/
def specSubtract : List Region → Region → List Region
  | [], _ => []
  | r :: rest, s => subFrag s r ++ specSubtract rest s

/-- Two regions intersect when their half-open intervals share a point. -/
def Region.intersects (a b : Region) : Prop :=
  max a.start b.start < min a.«end» b.«end»

/-- The complement-walk loop of `getKeptRegions` (exportUtils.ts lines
36-47): `c` is `currentTime`; the final trailing kept interval is emitted
when the cursor is still before `totalDuration`. -/
def keptGo (totalDuration : ℚ) : List Region → ℚ → List Region
  | [], c => if c < totalDuration then [⟨c, totalDuration⟩] else []
  | r :: rest, c =>
    (if c < r.start then [⟨c, r.start⟩] else []) ++
      keptGo totalDuration rest (max c r.«end»)

/-- Model of `getKeptRegions` (exportUtils.ts lines 33-50): sort a copy of
the deleted regions by start, then walk them with a cursor starting at 0. -/
def getKeptRegions (deletedRegions : List Region) (totalDuration : ℚ) : List Region :=
  keptGo totalDuration (sortBy regionLE deletedRegions) 0

/-- Total time covered by a region list, counted per region. -/
def totalLen (l : List Region) : ℚ :=
  (l.map fun q => q.«end» - q.start).sum

/-- Time covered by a single region clipped to the window `[c, D]`. -/
def clipLen (c D : ℚ) (q : Region) : ℚ :=
  max 0 (min q.«end» D - max q.start c)

/-- Total time covered by a region list clipped to `[c, D]` (for a sorted
non-overlapping list the regions are disjoint, so the sum is the measure). -/
def clipTotal (c D : ℚ) (l : List Region) : ℚ :=
  (l.map (clipLen c D)).sum

/-- ECMAScript `TypedArray.prototype.slice(s, e)`: negative indices are
taken relative to the end, both indices are clamped to the array length,
and an empty slice results when the range is inverted. -/
def jsSlice (l : List ℚ) (s e : ℤ) : List ℚ :=
  let len : ℤ := l.length
  let f : ℤ := if s < 0 then max (len + s) 0 else min s len
  let t : ℤ := if e < 0 then max (len + e) 0 else min e len
  (l.drop f.toNat).take (t - f).toNat

/-- ECMAScript `TypedArray.prototype.set(src, offset)`: writes `src` into
the target at `offset`; a negative offset or a write extending past the
target's length throws a RangeError, modelled as `none`. -/
def setAt (target : List ℚ) (offset : ℤ) (src : List ℚ) : Option (List ℚ) :=
  if 0 ≤ offset ∧ offset + src.length ≤ target.length then
    some (target.take offset.toNat ++ src ++ target.drop (offset.toNat + src.length))
  else none

/-- Sample index of a time in seconds: `Math.floor(time * sampleRate)`. -/
def sampleIndex (rate time : ℚ) : ℤ := ⌊time * rate⌋

/-- The sample length `endSample - startSample` of a region
(exportUtils.ts lines 63-65 and 81-83). -/
def regionSamples (rate : ℚ) (q : Region) : ℤ :=
  sampleIndex rate q.«end» - sampleIndex rate q.start

/-- The `totalSamples` accumulation of `exportAudio` (exportUtils.ts lines
61-66). -/
def totalSamples (rate : ℚ) (kept : List Region) : ℤ :=
  (kept.map (regionSamples rate)).sum

/-- One iteration of the per-channel copy loop of `exportAudio`
(exportUtils.ts lines 80-104): slice the source region, copy it at the
running offset if it fits, otherwise truncate the chunk to the remaining
room; the offset always advances by the full chunk length. -/
def copyRegion (input : List ℚ) (rate : ℚ) (acc : ℤ × List ℚ) (q : Region) :
    Option (ℤ × List ℚ) :=
  let offset := acc.1
  let out := acc.2
  let startSample := sampleIndex rate q.start
  let endSample := sampleIndex rate q.«end»
  let length := endSample - startSample
  if startSample < (input.length : ℤ) then
    let chunk := jsSlice input startSample (startSample + length)
    if offset + chunk.length ≤ (out.length : ℤ) then
      (setAt out offset chunk).map fun out2 => (offset + chunk.length, out2)
    else
      let fitLength : ℤ := (out.length : ℤ) - offset
      let chunk2 := jsSlice chunk 0 fitLength
      (setAt out offset chunk2).map fun out2 => (offset + chunk.length, out2)
  else
    some (offset, out)

/-- The region loop of `exportAudio` for one channel: run `copyRegion` on
each kept region in order, threading the offset and the output array; a
RangeError anywhere aborts the whole computation. -/
def copyLoop (input : List ℚ) (rate : ℚ) : List Region → ℤ × List ℚ → Option (ℤ × List ℚ)
  | [], acc => some acc
  | q :: rest, acc => do
    let acc2 ← copyRegion input rate acc q
    copyLoop input rate rest acc2

/-- The per-channel copy of `exportAudio`: the channel's view
(`outputBuffer.getChannelData(channel)`) of an output buffer that has
already been allocated successfully with `outLen` samples — zero-filled
per the Web Audio specification — written region by region.  Whether the
allocation itself succeeds is decided in `exportAudio`. -/
def exportChannel (rate : ℚ) (kept : List Region) (outLen : ℕ) (input : List ℚ) :
    Option (List ℚ) :=
  (copyLoop input rate kept ((0 : ℤ), List.replicate outLen (0 : ℚ))).map
    fun acc => acc.2

/-- The channel loop of `exportAudio` (exportUtils.ts line 75): every
channel is spliced with the same kept regions and the same output length. -/
def exportChannels (rate : ℚ) (kept : List Region) (outLen : ℕ) :
    List (List ℚ) → Option (List (List ℚ))
  | [] => some []
  | ch :: rest => do
    let o ← exportChannel rate kept outLen ch
    let os ← exportChannels rate kept outLen rest
    some (o :: os)

/-- Model of a decoded Web Audio `AudioBuffer`: a sample rate, a frame
count, and per-channel sample data. -/
structure AudioBufferModel where
  sampleRate : ℚ
  length : ℕ
  channelData : List (List ℚ)

/-- Web Audio `AudioBuffer.duration` is `length / sampleRate`. -/
def AudioBufferModel.duration (b : AudioBufferModel) : ℚ :=
  (b.length : ℚ) / b.sampleRate

/-- Well-formedness of an `AudioBuffer`: every channel holds exactly
`length` samples. -/
def AudioBufferModel.WF (b : AudioBufferModel) : Prop :=
  ∀ ch ∈ b.channelData, ch.length = b.length

/-- Model of `exportAudio` (exportUtils.ts lines 52-108) up to the output
buffer contents: compute the kept regions, allocate a `totalSamples`-frame
output buffer, and run the copy loop on every channel.  The
`new AudioBuffer({length: totalSamples, ...})` allocation (lines 69-73)
throws NotSupportedError when the requested length is not a positive
integer (Web Audio API requirement, enforced by every engine), modelled
as `none`; a RangeError raised by an out-of-bounds `set` is likewise
modelled as `none`. -/
def exportAudio (b : AudioBufferModel) (deletedRegions : List Region) :
    Option (List (List ℚ)) :=
  if totalSamples b.sampleRate (getKeptRegions deletedRegions b.duration) ≤ 0 then
    none
  else
    exportChannels b.sampleRate (getKeptRegions deletedRegions b.duration)
      (totalSamples b.sampleRate (getKeptRegions deletedRegions b.duration)).toNat
      b.channelData

/-- Clamping of a float sample in the WAV encoder
(`Math.max(-1, Math.min(1, v))`, exportUtils.ts line 145). -/
def clampSample (x : ℚ) : ℚ := max (-1) (min 1 x)

/-- Truncation toward zero, the effect of JavaScript `| 0` on a number in
int32 range before wrapping. -/
def truncQ (q : ℚ) : ℤ := if 0 ≤ q then ⌊q⌋ else ⌈q⌉

/-- JavaScript `ToInt32` (the `| 0` coercion): truncate toward zero, then
wrap into `[-2^31, 2^31)`. -/
def toInt32 (q : ℚ) : ℤ := (truncQ q + 2 ^ 31) % 2 ^ 32 - 2 ^ 31

/-- The sample conversion of `bufferToWav` (exportUtils.ts lines 145-146):
clamp, then `(0.5 + sample < 0 ? sample * 32768 : sample * 32767) | 0`.
Note that the `0.5 +` belongs to the comparison, not to the scaled value. -/
def convertSample (x : ℚ) : ℤ :=
  toInt32 (if 1 / 2 + clampSample x < 0 then clampSample x * 32768
    else clampSample x * 32767)

/-- The sample conversion as the specification describes it: clamp, scale
negative values by 32768 and non-negative ones by 32767, truncate toward
zero. -/
def specConvertSample (x : ℚ) : ℤ :=
  truncQ (if clampSample x < 0 then clampSample x * 32768
    else clampSample x * 32767)

/-- The two bytes written by `DataView.setInt16(pos, v, true)`: the value
is wrapped to 16 bits and stored little-endian (low byte first). -/
def int16BytesLE (v : ℤ) : List ℕ :=
  let w := (v % 65536).toNat
  [w % 256, w / 256]

/-- The signed 16-bit value denoted by a little-endian byte pair (what a
decoder reads back). -/
def int16ValueLE (bytes : List ℕ) : ℤ :=
  let w := bytes.getD 0 0 + 256 * bytes.getD 1 0
  if w < 32768 then (w : ℤ) else (w : ℤ) - 65536

/-- Heap model of `mergeRegions` for aliasing questions: the JavaScript
version sorts an array of object references and mutates `last.end` in
place, where `last` may be one of the caller's region objects.  Addresses
are indices into a store holding the input regions followed by the new
region.  `sweepH` is the sweep of `mergeRegions` acting on addresses,
reading and writing region values through the store. -/
def sweepH : List Region → ℕ → List ℕ → List ℕ × List Region
  | store, lastA, [] => ([lastA], store)
  | store, lastA, c :: cs =>
    let lastV := store.getD lastA ⟨0, 0⟩
    let cV := store.getD c ⟨0, 0⟩
    if cV.start ≤ lastV.«end» then
      sweepH (store.set lastA ⟨lastV.start, max lastV.«end» cV.«end»⟩) lastA cs
    else
      let res := sweepH store c cs
      (lastA :: res.1, res.2)

/-- Sweep of a whole address list through the store. -/
def sweepListH (store : List Region) : List ℕ → List ℕ × List Region
  | [] => ([], store)
  | a :: as => sweepH store a as

/-- Heap model of `mergeRegions`: returns the output as a list of
addresses together with the final store (the final values of the caller's
region objects and of the new region). -/
def mergeRegionsAlloc (regions : List Region) (newRegion : Region) :
    List ℕ × List Region :=
  let store := regions ++ [newRegion]
  sweepListH store
    (sortBy
      (fun a b => decide ((store.getD a ⟨0, 0⟩).start ≤ (store.getD b ⟨0, 0⟩).start))
      (List.range store.length))

theorem inso_ne_nil (le : α → α → Bool) (a : α) (l : List α) : insoBy le a l ≠ [] := by
  cases l with
  | nil => simp [insoBy]
  | cons b t => simp only [insoBy]; split <;> simp

theorem mem_insoBy (le : α → α → Bool) (a x : α) (l : List α) :
    x ∈ insoBy le a l ↔ x = a ∨ x ∈ l := by
  induction l with
  | nil => simp [insoBy]
  | cons b t ih =>
    simp only [insoBy]
    split
    · simp only [List.mem_cons, ih]
      tauto
    · simp only [List.mem_cons]

theorem mem_sortBy (le : α → α → Bool) (l : List α) (x : α) :
    x ∈ sortBy le l ↔ x ∈ l := by
  have aux : ∀ (l acc : List α),
      x ∈ List.foldl (fun acc a => insoBy le a acc) acc l ↔ x ∈ acc ∨ x ∈ l := by
    intro l
    induction l with
    | nil => simp
    | cons a t ih =>
      intro acc
      simp only [List.foldl_cons, ih, mem_insoBy, List.mem_cons]
      tauto
  simpa using aux l []

theorem regionLE_iff (a b : Region) : regionLE a b = true ↔ a.start ≤ b.start := by
  simp [regionLE]

theorem pairwise_insoBy {a : Region} {l : List Region}
    (h : l.Pairwise fun p q : Region => p.start ≤ q.start) :
    (insoBy regionLE a l).Pairwise fun p q : Region => p.start ≤ q.start := by
  induction l with
  | nil => simp [insoBy]
  | cons b t ih =>
    simp only [insoBy]
    rcases List.pairwise_cons.mp h with ⟨hb, ht⟩
    split
    · rename_i hba
      refine List.pairwise_cons.mpr ⟨?_, ih ht⟩
      intro y hy
      rcases (mem_insoBy _ _ _ _).mp hy with rfl | hyt
      · exact (regionLE_iff _ _).mp hba
      · exact hb y hyt
    · rename_i hba
      have hab : a.start ≤ b.start := by
        have := (regionLE_iff b a).not.mp (by simpa using hba)
        exact le_of_lt (lt_of_not_le this)
      refine List.pairwise_cons.mpr ⟨?_, h⟩
      intro y hy
      rcases List.mem_cons.mp hy with rfl | hyt
      · exact hab
      · exact le_trans hab (hb y hyt)

theorem sortBy_sorted (l : List Region) :
    (sortBy regionLE l).Pairwise fun p q : Region => p.start ≤ q.start := by
  have aux : ∀ (l acc : List Region),
      acc.Pairwise (fun p q : Region => p.start ≤ q.start) →
      (List.foldl (fun acc a => insoBy regionLE a acc) acc l).Pairwise
        fun p q : Region => p.start ≤ q.start := by
    intro l
    induction l with
    | nil => intro acc h; simpa using h
    | cons a t ih =>
      intro acc h
      exact ih _ (pairwise_insoBy h)
  exact aux l [] (by simp)

theorem insoBy_of_le {a : Region} {l : List Region}
    (h : ∀ b ∈ l, b.start ≤ a.start) : insoBy regionLE a l = l ++ [a] := by
  induction l with
  | nil => rfl
  | cons b t ih =>
    simp only [insoBy]
    rw [if_pos ((regionLE_iff b a).mpr (h b (List.mem_cons_self _ _)))]
    simp [ih fun c hc => h c (List.mem_cons_of_mem _ hc)]

theorem sortBy_of_sorted {l : List Region}
    (h : l.Pairwise fun p q : Region => p.start ≤ q.start) :
    sortBy regionLE l = l := by
  have aux : ∀ (l acc : List Region),
      l.Pairwise (fun p q : Region => p.start ≤ q.start) →
      (∀ b ∈ acc, ∀ c ∈ l, b.start ≤ c.start) →
      List.foldl (fun acc a => insoBy regionLE a acc) acc l = acc ++ l := by
    intro l
    induction l with
    | nil => intro acc _ _; simp
    | cons c t ih =>
      intro acc hp hac
      rcases List.pairwise_cons.mp hp with ⟨hc, ht⟩
      simp only [List.foldl_cons]
      rw [insoBy_of_le fun b hb => hac b hb c (List.mem_cons_self _ _)]
      rw [ih (acc ++ [c]) ht]
      · simp
      · intro b hb d hd
        rcases List.mem_append.mp hb with hb | hb
        · exact hac b hb d (List.mem_cons_of_mem _ hd)
        · simp only [List.mem_singleton] at hb
          subst hb
          exact hc d hd
  simpa using aux l [] h (by simp)

theorem sortBy_append_singleton (S : List Region) (r : Region) :
    sortBy regionLE (S ++ [r]) = insoBy regionLE r (sortBy regionLE S) := by
  simp [sortBy, List.foldl_append]

theorem regionInv_singleton (a : Region) (h : a.start < a.«end») : RegionInv [a] :=
  ⟨List.chain'_singleton a, by simpa using h⟩

theorem inv_cons_tail {a : Region} {l : List Region} (h : RegionInv (a :: l)) :
    RegionInv l :=
  ⟨h.1.tail, fun r hr => h.2 r (List.mem_cons_of_mem _ hr)⟩

theorem inv_head_lt {a : Region} {l : List Region} (h : RegionInv (a :: l)) :
    ∀ b ∈ l, a.«end» < b.start := by
  induction l generalizing a with
  | nil => intro b hb; cases hb
  | cons c t ih =>
    intro b hb
    have hac : a.«end» < c.start := (List.chain'_cons.mp h.1).1
    rcases List.mem_cons.mp hb with rfl | hbt
    · exact hac
    · have hct : c.«end» < b.start := ih (inv_cons_tail h) b hbt
      have hcg : c.start < c.«end» := h.2 c (by simp)
      linarith

theorem inv_pairwise_le {l : List Region} (h : RegionInv l) :
    l.Pairwise fun p q : Region => p.start ≤ q.start := by
  induction l with
  | nil => simp
  | cons a t ih =>
    refine List.pairwise_cons.mpr ⟨?_, ih (inv_cons_tail h)⟩
    intro b hb
    have h1 : a.start < a.«end» := h.2 a (by simp)
    have h2 : a.«end» < b.start := inv_head_lt h b hb
    linarith

theorem inv_pairwise_lt {l : List Region} (h : RegionInv l) :
    l.Pairwise fun p q : Region => p.start < q.start := by
  induction l with
  | nil => simp
  | cons a t ih =>
    refine List.pairwise_cons.mpr ⟨?_, ih (inv_cons_tail h)⟩
    intro b hb
    have h1 : a.start < a.«end» := h.2 a (by simp)
    have h2 : a.«end» < b.start := inv_head_lt h b hb
    linarith

theorem inv_pairwise_gap {l : List Region} (h : RegionInv l) :
    l.Pairwise fun p q : Region => p.«end» < q.start := by
  induction l with
  | nil => simp
  | cons a t ih =>
    exact List.pairwise_cons.mpr ⟨inv_head_lt h, ih (inv_cons_tail h)⟩

theorem sweep_head_start : ∀ (l : List Region) (a : Region),
    ∃ b t, sweep a l = b :: t ∧ b.start = a.start := by
  intro l
  induction l with
  | nil => intro a; exact ⟨a, [], rfl, rfl⟩
  | cons c cs ih =>
    intro a
    simp only [sweep]
    split
    · exact ih _
    · exact ⟨a, sweep c cs, rfl, rfl⟩

theorem sweep_inv : ∀ (l : List Region) (a : Region),
    (a :: l).Pairwise (fun p q : Region => p.start ≤ q.start) →
    (∀ q ∈ a :: l, q.start < q.«end») → RegionInv (sweep a l) := by
  intro l
  induction l with
  | nil =>
    intro a _ hg
    refine ⟨List.chain'_singleton a, ?_⟩
    intro r hr
    have hra : r = a := by simpa [sweep] using hr
    rw [hra]
    exact hg a (by simp)
  | cons c cs ih =>
    intro a hp hg
    rcases List.pairwise_cons.mp hp with ⟨ha, hp'⟩
    rcases List.pairwise_cons.mp hp' with ⟨hc, hcs⟩
    simp only [sweep]
    split
    · rename_i hce
      apply ih ⟨a.start, max a.«end» c.«end»⟩
      · refine List.pairwise_cons.mpr ⟨?_, hcs⟩
        intro q hq
        exact ha q (List.mem_cons_of_mem _ hq)
      · intro q hq
        rcases List.mem_cons.mp hq with rfl | hq
        · have : a.start < a.«end» := hg a (by simp)
          exact lt_of_lt_of_le this (le_max_left _ _)
        · exact hg q (List.mem_cons_of_mem _ (List.mem_cons_of_mem _ hq))
    · rename_i hce
      have hlt : a.«end» < c.start := lt_of_not_le hce
      have hinv : RegionInv (sweep c cs) := by
        apply ih c (List.pairwise_cons.mpr ⟨hc, hcs⟩)
        intro q hq
        exact hg q (List.mem_cons_of_mem _ hq)
      obtain ⟨b, t, hbt, hbs⟩ := sweep_head_start cs c
      constructor
      · rw [hbt]
        refine List.chain'_cons.mpr ⟨?_, ?_⟩
        · rw [hbs]; exact hlt
        · have := hinv.1; rwa [hbt] at this
      · intro q hq
        rcases List.mem_cons.mp hq with rfl | hq
        · exact hg q (by simp)
        · exact hinv.2 q hq

theorem sweep_of_inv {a : Region} {l : List Region} (h : RegionInv (a :: l)) :
    sweep a l = a :: l := by
  induction l generalizing a with
  | nil => rfl
  | cons c cs ih =>
    have hac : a.«end» < c.start := (List.chain'_cons.mp h.1).1
    simp only [sweep]
    rw [if_neg (not_le.mpr hac)]
    rw [ih (inv_cons_tail h)]

theorem covers_cons {y : Region} {l : List Region} {x : ℚ} :
    covers (y :: l) x ↔ (y.start ≤ x ∧ x < y.«end») ∨ covers l x := by
  simp [covers]

theorem covers_congr_mem {l₁ l₂ : List Region} (h : ∀ q, q ∈ l₁ ↔ q ∈ l₂) (x : ℚ) :
    covers l₁ x ↔ covers l₂ x := by
  unfold covers
  constructor
  · rintro ⟨q, hq, h1, h2⟩
    exact ⟨q, (h q).mp hq, h1, h2⟩
  · rintro ⟨q, hq, h1, h2⟩
    exact ⟨q, (h q).mpr hq, h1, h2⟩

theorem covers_append {l₁ l₂ : List Region} {x : ℚ} :
    covers (l₁ ++ l₂) x ↔ covers l₁ x ∨ covers l₂ x := by
  simp [covers, List.mem_append, or_and_right, exists_or]

theorem sweep_covers : ∀ (l : List Region) (a : Region) (x : ℚ),
    (a :: l).Pairwise (fun p q : Region => p.start ≤ q.start) →
    (covers (sweep a l) x ↔ covers (a :: l) x) := by
  intro l
  induction l with
  | nil => intro a x _; rfl
  | cons c cs ih =>
    intro a x hp
    rcases List.pairwise_cons.mp hp with ⟨ha, hp'⟩
    have hac : a.start ≤ c.start := ha c (by simp)
    simp only [sweep]
    split
    · rename_i hce
      rw [ih ⟨a.start, max a.«end» c.«end»⟩ x]
      · rw [covers_cons, covers_cons, covers_cons]
        constructor
        · rintro (⟨h1, h2⟩ | h)
          · rcases lt_max_iff.mp h2 with h2 | h2
            · exact Or.inl ⟨h1, h2⟩
            · by_cases hxa : x < a.«end»
              · exact Or.inl ⟨h1, hxa⟩
              · exact Or.inr (Or.inl ⟨le_trans hce (not_lt.mp hxa), h2⟩)
          · exact Or.inr (Or.inr h)
        · rintro (⟨h1, h2⟩ | ⟨h1, h2⟩ | h)
          · exact Or.inl ⟨h1, lt_of_lt_of_le h2 (le_max_left _ _)⟩
          · exact Or.inl ⟨le_trans hac h1, lt_of_lt_of_le h2 (le_max_right _ _)⟩
          · exact Or.inr h
      · refine List.pairwise_cons.mpr ⟨?_, (List.pairwise_cons.mp hp').2⟩
        intro q hq
        exact ha q (List.mem_cons_of_mem _ hq)
    · rw [covers_cons, covers_cons, ih c x hp']

theorem covers_lb {a : Region} {l : List Region} {x : ℚ} (hinv : RegionInv (a :: l))
    (h : covers (a :: l) x) : a.start ≤ x := by
  rcases h with ⟨q, hq, h1, _⟩
  rcases List.mem_cons.mp hq with rfl | hq
  · exact h1
  · have h2 : a.«end» < q.start := inv_head_lt hinv q hq
    have h3 : a.start < a.«end» := hinv.2 a (by simp)
    linarith

theorem covers_head_start {a : Region} {l : List Region} (hinv : RegionInv (a :: l)) :
    covers (a :: l) a.start :=
  ⟨a, by simp, le_refl _, hinv.2 a (by simp)⟩

theorem not_covers_end {a : Region} {l : List Region} (hinv : RegionInv (a :: l)) :
    ¬ covers (a :: l) a.«end» := by
  rintro ⟨q, hq, h1, h2⟩
  rcases List.mem_cons.mp hq with rfl | hq
  · exact absurd h2 (lt_irrefl _)
  · exact absurd h1 (not_le.mpr (inv_head_lt hinv q hq))

theorem covers_tail_iff {a : Region} {l : List Region} {x : ℚ}
    (hinv : RegionInv (a :: l)) :
    covers l x ↔ covers (a :: l) x ∧ a.«end» < x := by
  constructor
  · rintro ⟨q, hq, h1, h2⟩
    refine ⟨⟨q, List.mem_cons_of_mem _ hq, h1, h2⟩, ?_⟩
    exact lt_of_lt_of_le (inv_head_lt hinv q hq) h1
  · rintro ⟨⟨q, hq, h1, h2⟩, hax⟩
    rcases List.mem_cons.mp hq with rfl | hq
    · exact absurd (lt_trans hax h2) (lt_irrefl _)
    · exact ⟨q, hq, h1, h2⟩

theorem inv_eq_of_covers : ∀ (l₁ l₂ : List Region), RegionInv l₁ → RegionInv l₂ →
    (∀ x, covers l₁ x ↔ covers l₂ x) → l₁ = l₂ := by
  intro l₁
  induction l₁ with
  | nil =>
    intro l₂ _ hinv₂ hcov
    cases l₂ with
    | nil => rfl
    | cons y ys =>
      exfalso
      rcases (hcov y.start).mpr (covers_head_start hinv₂) with ⟨q, hq, _⟩
      cases hq
  | cons x xs ih =>
    intro l₂ hinv₁ hinv₂ hcov
    cases l₂ with
    | nil =>
      exfalso
      rcases (hcov x.start).mp (covers_head_start hinv₁) with ⟨q, hq, _⟩
      cases hq
    | cons y ys =>
      have hs1 : y.start ≤ x.start :=
        covers_lb hinv₂ ((hcov _).mp (covers_head_start hinv₁))
      have hs2 : x.start ≤ y.start :=
        covers_lb hinv₁ ((hcov _).mpr (covers_head_start hinv₂))
      have hs : x.start = y.start := le_antisymm hs2 hs1
      have he : x.«end» = y.«end» := by
        by_contra hne
        rcases lt_or_gt_of_ne hne with hlt | hgt
        · have hxg : x.start < x.«end» := hinv₁.2 x (by simp)
          have : covers (y :: ys) x.«end» :=
            ⟨y, by simp, by rw [← hs]; exact le_of_lt hxg, hlt⟩
          exact not_covers_end hinv₁ ((hcov _).mpr this)
        · have hyg : y.start < y.«end» := hinv₂.2 y (by simp)
          have : covers (x :: xs) y.«end» :=
            ⟨x, by simp, by rw [hs]; exact le_of_lt hyg, hgt⟩
          exact not_covers_end hinv₂ ((hcov _).mp this)
      have hxy : x = y := Region.ext hs he
      have htail : ∀ z, covers xs z ↔ covers ys z := by
        intro z
        rw [covers_tail_iff hinv₁, covers_tail_iff hinv₂, hcov z, he]
      rw [hxy, ih ys (inv_cons_tail hinv₁) (inv_cons_tail hinv₂) htail]

theorem sortBy_merge_ne_nil (S : List Region) (r : Region) :
    ∃ a t, sortBy regionLE (S ++ [r]) = a :: t := by
  cases hs : sortBy regionLE (S ++ [r]) with
  | nil =>
    exfalso
    have : r ∈ sortBy regionLE (S ++ [r]) := (mem_sortBy _ _ _).mpr (by simp)
    rw [hs] at this
    cases this
  | cons a t => exact ⟨a, t, rfl⟩

theorem mergeRegions_covers (S : List Region) (r : Region) (x : ℚ) :
    covers (mergeRegions S r) x ↔ covers S x ∨ (r.start ≤ x ∧ x < r.«end») := by
  obtain ⟨a, t, hs⟩ := sortBy_merge_ne_nil S r
  have hsorted := sortBy_sorted (S ++ [r])
  rw [hs] at hsorted
  have hmem : ∀ q, q ∈ a :: t ↔ q ∈ S ++ [r] := by
    intro q
    rw [← hs, mem_sortBy]
  unfold mergeRegions
  rw [hs]
  show covers (sweep a t) x ↔ _
  rw [sweep_covers t a x hsorted, covers_congr_mem hmem, covers_append]
  have : covers [r] x ↔ r.start ≤ x ∧ x < r.«end» := by simp [covers]
  rw [this]

theorem mergeRegions_inv (S : List Region) (r : Region)
    (hS : ∀ q ∈ S, q.start < q.«end») (hr : r.start < r.«end») :
    RegionInv (mergeRegions S r) := by
  obtain ⟨a, t, hs⟩ := sortBy_merge_ne_nil S r
  have hsorted := sortBy_sorted (S ++ [r])
  rw [hs] at hsorted
  unfold mergeRegions
  rw [hs]
  show RegionInv (sweep a t)
  apply sweep_inv t a hsorted
  intro q hq
  have : q ∈ S ++ [r] := by
    rw [← hs, mem_sortBy] at hq
    exact hq
  rcases List.mem_append.mp this with hq | hq
  · exact hS q hq
  · simp only [List.mem_singleton] at hq
    rw [hq]
    exact hr

theorem sweep_absorb : ∀ (S : List Region) (r : Region), RegionInv S →
    r.«end» = r.start → (∃ q ∈ S, q.start ≤ r.start ∧ r.start ≤ q.«end») →
    sweepList (insoBy regionLE r S) = S := by
  intro S
  induction S with
  | nil =>
    rintro r _ _ ⟨q, hq, _⟩
    cases hq
  | cons p S' ih =>
    rintro r hinv hre ⟨q, hq, hq1, hq2⟩
    by_cases hpr : p.start ≤ r.start
    · have hple : regionLE p r = true := (regionLE_iff _ _).mpr hpr
      simp only [insoBy, hple, if_true]
      show sweep p (insoBy regionLE r S') = p :: S'
      by_cases hxe : r.start ≤ p.«end»
      · have hiso : insoBy regionLE r S' = r :: S' := by
          cases S' with
          | nil => rfl
          | cons m t =>
            have hpm : p.«end» < m.start := (List.chain'_cons.mp hinv.1).1
            have : ¬ (m.start ≤ r.start) := not_le.mpr (lt_of_le_of_lt hxe hpm)
            simp only [insoBy]
            rw [if_neg (by simpa [regionLE] using this)]
        rw [hiso]
        simp only [sweep]
        rw [if_pos hxe]
        have hmax : max p.«end» r.«end» = p.«end» := by
          rw [hre]
          exact max_eq_left hxe
        rw [hmax]
        have hp_eta : (⟨p.start, p.«end»⟩ : Region) = p := rfl
        rw [hp_eta]
        exact sweep_of_inv hinv
      · have hq' : q ∈ S' := by
          rcases List.mem_cons.mp hq with rfl | hq'
          · exact absurd hq2 hxe
          · exact hq'
        obtain ⟨c, t, hct⟩ : ∃ c t, insoBy regionLE r S' = c :: t := by
          cases h : insoBy regionLE r S' with
          | nil => exact absurd h (inso_ne_nil _ _ _)
          | cons c t => exact ⟨c, t, rfl⟩
        rw [hct]
        have hcp : ¬ (c.start ≤ p.«end») := by
          have hcm : c ∈ insoBy regionLE r S' := by rw [hct]; simp
          rcases (mem_insoBy _ _ _ _).mp hcm with rfl | hcs
          · exact fun hcon => hxe hcon
          · exact not_le.mpr (inv_head_lt hinv c hcs)
        simp only [sweep]
        rw [if_neg hcp]
        have : sweep c t = S' := by
          have h1 : sweepList (insoBy regionLE r S') = S' :=
            ih r (inv_cons_tail hinv) hre ⟨q, hq', hq1, hq2⟩
          rw [hct] at h1
          exact h1
        rw [this]
    · exfalso
      have hrp : r.start < p.start := lt_of_not_le hpr
      rcases List.mem_cons.mp hq with rfl | hq'
      · exact hpr hq1
      · have h1 : p.«end» < q.start := inv_head_lt hinv q hq'
        have h2 : p.start < p.«end» := hinv.2 p (by simp)
        linarith

theorem subtract_eq_spec (S : List Region) (r : Region) :
    subtractRegion S r = specSubtract S r := by
  have aux : ∀ (S : List Region) (acc : List Region),
      S.foldl (fun result q => result ++ subFrag r q) acc = acc ++ specSubtract S r := by
    intro S
    induction S with
    | nil => intro acc; simp [specSubtract]
    | cons q rest ih =>
      intro acc
      simp only [List.foldl_cons, specSubtract]
      rw [ih]
      simp
  simpa [subtractRegion] using aux S []

theorem subFrag_disjoint (s q : Region) :
    ∀ t ∈ subFrag s q, ¬ Region.intersects t s := by
  intro t ht
  unfold subFrag at ht
  split at ht
  · rename_i hno
    simp only [List.mem_singleton] at ht
    subst ht
    rcases hno with hno | hno
    · intro hcon
      unfold Region.intersects at hcon
      have h1 : min t.«end» s.«end» ≤ s.«end» := min_le_right _ _
      have h2 : t.start ≤ max t.start s.start := le_max_left _ _
      linarith
    · intro hcon
      unfold Region.intersects at hcon
      have h1 : min t.«end» s.«end» ≤ t.«end» := min_le_left _ _
      have h2 : s.start ≤ max t.start s.start := le_max_right _ _
      linarith
  · rcases List.mem_append.mp ht with ht | ht
    · have ht' : t = ⟨q.start, s.start⟩ := by
        rcases em (q.start < s.start) with h | h
        · rw [if_pos h] at ht
          simpa using ht
        · rw [if_neg h] at ht
          cases ht
      subst ht'
      intro hcon
      unfold Region.intersects at hcon
      simp only at hcon
      have h1 : min s.start s.«end» ≤ s.start := min_le_left _ _
      have h2 : s.start ≤ max q.start s.start := le_max_right _ _
      linarith
    · have ht' : t = ⟨s.«end», q.«end»⟩ := by
        rcases em (q.«end» > s.«end») with h | h
        · rw [if_pos h] at ht
          simpa using ht
        · rw [if_neg h] at ht
          cases ht
      subst ht'
      intro hcon
      unfold Region.intersects at hcon
      simp only at hcon
      have h1 : min q.«end» s.«end» ≤ s.«end» := min_le_right _ _
      have h2 : s.«end» ≤ max s.«end» s.start := le_max_left _ _
      linarith

theorem specSubtract_append (A B : List Region) (s : Region) :
    specSubtract (A ++ B) s = specSubtract A s ++ specSubtract B s := by
  induction A with
  | nil => simp [specSubtract]
  | cons a t ih => simp [specSubtract, ih]

theorem chain'_of_append_cons_cons {R : Region → Region → Prop} :
    ∀ (pre : List Region) (a b : Region) (post : List Region),
      List.Chain' R (pre ++ a :: b :: post) → R a b := by
  intro pre
  induction pre with
  | nil => intro a b post h; exact (List.chain'_cons.mp h).1
  | cons p t ih =>
    intro a b post h
    rw [List.cons_append] at h
    exact ih a b post h.tail

/-- Claim C3: starting from the empty RegionSet, after any sequence of
`mergeRegions` calls whose candidate regions each satisfy `start < end`,
the resulting region list is sorted by start ascending and every adjacent
pair satisfies `regions[i].end < regions[i+1].start` strictly. -/
theorem merge_sequence_invariant (cs : List Region)
    (h : ∀ c ∈ cs, c.start < c.«end») :
    RegionInv (cs.foldl mergeRegions []) ∧
      (cs.foldl mergeRegions []).Pairwise fun p q : Region => p.start < q.start := by
  have aux : ∀ (cs S : List Region), RegionInv S → (∀ c ∈ cs, c.start < c.«end») →
      RegionInv (cs.foldl mergeRegions S) := by
    intro cs
    induction cs with
    | nil => intro S hS _; exact hS
    | cons c t ih =>
      intro S hS hg
      simp only [List.foldl_cons]
      exact ih _ (mergeRegions_inv S c hS.2 (hg c (by simp)))
        fun d hd => hg d (List.mem_cons_of_mem _ hd)
  have hinv := aux cs [] ⟨List.chain'_nil, by simp⟩ h
  exact ⟨hinv, inv_pairwise_lt hinv⟩

/-- Claim C3 witness: a concrete merge sequence. -/
theorem merge_sequence_invariant_witness :
    RegionInv ([⟨0, 1⟩, ⟨2, 3⟩, (⟨1, 2⟩ : Region)].foldl mergeRegions []) ∧
      ([⟨0, 1⟩, ⟨2, 3⟩, (⟨1, 2⟩ : Region)].foldl mergeRegions []).Pairwise
        fun p q : Region => p.start < q.start :=
  merge_sequence_invariant [⟨0, 1⟩, ⟨2, 3⟩, ⟨1, 2⟩] (by decide)

/-- Claim C4 counterexample: `mergeRegions` applied to the empty set and
the degenerate region `{start := 5, end := 5}` is not a no-op — the
degenerate region appears in the output. -/
theorem merge_degenerate_not_noop :
    mergeRegions [] ⟨5, 5⟩ = [(⟨5, 5⟩ : Region)] ∧
      mergeRegions [] ⟨5, 5⟩ ≠ ([] : List Region) := by
  constructor
  · decide
  · decide

/-- Claim C4 amended: for an invariant-satisfying RegionSet, a degenerate
candidate (`start = end`) is a no-op exactly when its point lies inside
the closed span of an existing region; in that case the output equals the
input set.  (In general the degenerate region is inserted like any other
candidate, as the counterexample shows.) -/
theorem merge_degenerate_covered_noop (S : List Region) (r : Region)
    (hS : RegionInv S) (hre : r.«end» = r.start)
    (hcov : ∃ q ∈ S, q.start ≤ r.start ∧ r.start ≤ q.«end») :
    mergeRegions S r = S := by
  unfold mergeRegions
  rw [sortBy_append_singleton, sortBy_of_sorted (inv_pairwise_le hS)]
  exact sweep_absorb S r hS hre hcov

/-- Claim C4 witness: a degenerate region inside an existing region is
absorbed. -/
theorem merge_degenerate_covered_noop_witness :
    mergeRegions [⟨1, 3⟩] ⟨2, 2⟩ = [(⟨1, 3⟩ : Region)] :=
  merge_degenerate_covered_noop [⟨1, 3⟩] ⟨2, 2⟩
    (regionInv_singleton _ (by decide)) (by decide) (by decide)

/-- Claim C9: merge is idempotent — merging the same proper region twice
gives the same region list as merging it once. -/
theorem merge_idempotent (S : List Region) (r : Region)
    (hS : RegionInv S) (hr : r.start < r.«end») :
    mergeRegions (mergeRegions S r) r = mergeRegions S r := by
  have hM : RegionInv (mergeRegions S r) := mergeRegions_inv S r hS.2 hr
  have hMM : RegionInv (mergeRegions (mergeRegions S r) r) :=
    mergeRegions_inv _ r hM.2 hr
  apply inv_eq_of_covers _ _ hMM hM
  intro x
  rw [mergeRegions_covers, mergeRegions_covers]
  tauto

/-- Claim C9 witness: idempotence at a concrete set and region. -/
theorem merge_idempotent_witness :
    mergeRegions (mergeRegions [⟨0, 1⟩] ⟨3, 4⟩) ⟨3, 4⟩ =
      mergeRegions [(⟨0, 1⟩ : Region)] ⟨3, 4⟩ :=
  merge_idempotent [⟨0, 1⟩] ⟨3, 4⟩ (regionInv_singleton _ (by decide)) (by decide)

/-- Claim C5: `subtractRegion` treats each region exactly as the
specification describes (pass through when disjoint, keep the left and
right remainders when overlapping, drop contained regions), and no region
of the result intersects the subtracted region. -/
theorem subtract_spec_disjoint (S : List Region) (r : Region)
    (hS : RegionInv S) (hr : r.start < r.«end») :
    subtractRegion S r = specSubtract S r ∧
      ∀ t ∈ subtractRegion S r, ¬ Region.intersects t r := by
  refine ⟨subtract_eq_spec S r, ?_⟩
  intro t ht
  rw [subtract_eq_spec] at ht
  clear hS hr
  induction S with
  | nil => cases ht
  | cons q rest ih =>
    rcases List.mem_append.mp ht with ht | ht
    · exact subFrag_disjoint r q t ht
    · exact ih ht

/-- Claim C5 witness: subtracting the middle of a region leaves two
disjoint remainders. -/
theorem subtract_spec_disjoint_witness :
    subtractRegion [⟨0, 3⟩] ⟨1, 2⟩ = specSubtract [(⟨0, 3⟩ : Region)] ⟨1, 2⟩ ∧
      ∀ t ∈ subtractRegion [(⟨0, 3⟩ : Region)] ⟨1, 2⟩,
        ¬ Region.intersects t ⟨1, 2⟩ :=
  subtract_spec_disjoint [⟨0, 3⟩] ⟨1, 2⟩ (regionInv_singleton _ (by decide)) (by decide)

/-- Claim C10: subtracting a degenerate region `{x, x}` whose point lies
strictly inside a region `r` of the list is not a no-op: `r` is replaced
by the two touching fragments `[r.start, x)` and `[x, r.end)`, and the
result violates the strict-gap RegionSet invariant. -/
theorem subtract_degenerate_splits (S : List Region) (r : Region) (x : ℚ)
    (hmem : r ∈ S) (h1 : r.start < x) (h2 : x < r.«end») :
    (∃ pre post, subtractRegion S ⟨x, x⟩ =
        pre ++ ⟨r.start, x⟩ :: ⟨x, r.«end»⟩ :: post) ∧
      ¬ RegionInv (subtractRegion S ⟨x, x⟩) := by
  obtain ⟨A, B, hS⟩ := List.append_of_mem hmem
  have hno : ¬(x ≤ r.start ∨ x ≥ r.«end») := by
    push_neg
    exact ⟨h1, h2⟩
  have hfrag : subFrag ⟨x, x⟩ r = [⟨r.start, x⟩, ⟨x, r.«end»⟩] := by
    unfold subFrag
    rw [if_neg hno, if_pos h1, if_pos h2]
    rfl
  have hdec : subtractRegion S ⟨x, x⟩ =
      specSubtract A ⟨x, x⟩ ++ ⟨r.start, x⟩ :: ⟨x, r.«end»⟩ :: specSubtract B ⟨x, x⟩ := by
    rw [subtract_eq_spec, hS, specSubtract_append]
    simp [specSubtract, hfrag]
  refine ⟨⟨specSubtract A ⟨x, x⟩, specSubtract B ⟨x, x⟩, hdec⟩, ?_⟩
  intro hinv
  have := chain'_of_append_cons_cons (specSubtract A ⟨x, x⟩) ⟨r.start, x⟩ ⟨x, r.«end»⟩
    (specSubtract B ⟨x, x⟩) (hdec ▸ hinv.1)
  exact absurd this (lt_irrefl x)

theorem totalLen_append (l₁ l₂ : List Region) :
    totalLen (l₁ ++ l₂) = totalLen l₁ + totalLen l₂ := by
  simp [totalLen]

theorem keptGo_lb {D : ℚ} : ∀ (l : List Region) (c : ℚ),
    ∀ q ∈ keptGo D l c, c ≤ q.start := by
  intro l
  induction l with
  | nil =>
    intro c q hq
    simp only [keptGo] at hq
    split at hq
    · have : q = ⟨c, D⟩ := by simpa using hq
      rw [this]
    · cases hq
  | cons r rest ih =>
    intro c q hq
    simp only [keptGo] at hq
    rcases List.mem_append.mp hq with hq | hq
    · split at hq
      · have : q = ⟨c, r.start⟩ := by simpa using hq
        rw [this]
      · cases hq
    · exact le_trans (le_max_left _ _) (ih _ q hq)

theorem keptGo_good {D : ℚ} : ∀ (l : List Region) (c : ℚ),
    ∀ q ∈ keptGo D l c, q.start < q.«end» := by
  intro l
  induction l with
  | nil =>
    intro c q hq
    simp only [keptGo] at hq
    split at hq
    · rename_i hcD
      have : q = ⟨c, D⟩ := by simpa using hq
      rw [this]
      exact hcD
    · cases hq
  | cons r rest ih =>
    intro c q hq
    simp only [keptGo] at hq
    rcases List.mem_append.mp hq with hq | hq
    · split at hq
      · rename_i hcr
        have : q = ⟨c, r.start⟩ := by simpa using hq
        rw [this]
        exact hcr
      · cases hq
    · exact ih _ q hq

theorem keptGo_inv {D : ℚ} : ∀ (l : List Region) (c : ℚ),
    (∀ q ∈ l, q.start < q.«end») → RegionInv (keptGo D l c) := by
  intro l
  induction l with
  | nil =>
    intro c _
    simp only [keptGo]
    split
    · rename_i hcD
      exact regionInv_singleton _ hcD
    · exact ⟨List.chain'_nil, by simp⟩
  | cons r rest ih =>
    intro c hg
    have hrest : RegionInv (keptGo D rest (max c r.«end»)) :=
      ih _ fun q hq => hg q (List.mem_cons_of_mem _ hq)
    simp only [keptGo]
    split
    · rename_i hcr
      simp only [List.singleton_append]
      constructor
      · apply List.chain'_cons'.mpr
        refine ⟨?_, hrest.1⟩
        intro y hy
        have hy' : y ∈ keptGo D rest (max c r.«end») := List.mem_of_mem_head? hy
        have h1 : max c r.«end» ≤ y.start := keptGo_lb _ _ y hy'
        have h2 : r.«end» ≤ max c r.«end» := le_max_right _ _
        have h3 : r.start < r.«end» := hg r (by simp)
        show r.start < y.start
        linarith
      · intro q hq
        rcases List.mem_cons.mp hq with rfl | hq
        · exact hcr
        · exact hrest.2 q hq
    · simpa using hrest

theorem keptGo_sum {D : ℚ} : ∀ (l : List Region) (c : ℚ), RegionInv l →
    (∀ q ∈ l, q.start ≤ D) → 0 ≤ c → c ≤ D →
    totalLen (keptGo D l c) + clipTotal c D l = D - c := by
  intro l
  induction l with
  | nil =>
    intro c _ _ _ hcD
    simp only [keptGo, clipTotal, List.map_nil, List.sum_nil, add_zero]
    split
    · simp [totalLen]
    · rename_i hc
      have : c = D := le_antisymm hcD (not_lt.mp hc)
      simp [totalLen, this]
  | cons r rest ih =>
    intro c hinv hb h0c hcD
    have hgr : r.start < r.«end» := hinv.2 r (by simp)
    have hrD : r.start ≤ D := hb r (by simp)
    simp only [keptGo, clipTotal, List.map_cons, List.sum_cons]
    rw [totalLen_append]
    by_cases hre : r.«end» ≤ D
    · have h0c' : 0 ≤ max c r.«end» := le_trans h0c (le_max_left _ _)
      have hcD' : max c r.«end» ≤ D := max_le hcD hre
      have hIH := ih (max c r.«end») (inv_cons_tail hinv)
        (fun q hq => hb q (List.mem_cons_of_mem _ hq)) h0c' hcD'
      simp only [clipTotal] at hIH
      have hshift : rest.map (clipLen c D) = rest.map (clipLen (max c r.«end») D) := by
        apply List.map_congr_left
        intro q hq
        have hq' : r.«end» < q.start := inv_head_lt hinv q hq
        unfold clipLen
        have : max q.start (max c r.«end») = max q.start c := by
          rw [max_comm c r.«end», ← max_assoc, max_eq_left (le_of_lt hq')]
        rw [max_comm q.start c, this, max_comm q.start c]
      rw [hshift]
      by_cases hcr : c < r.start
      · rw [if_pos hcr]
        have hclip : clipLen c D r = r.«end» - r.start := by
          unfold clipLen
          rw [min_eq_left hre, max_eq_left (le_of_lt hcr)]
          exact max_eq_right (by linarith)
        have hmax : max c r.«end» = r.«end» := max_eq_right (by linarith)
        have hpre : totalLen [(⟨c, r.start⟩ : Region)] = r.start - c := by
          simp [totalLen]
        rw [hmax] at hIH
        rw [hclip, hmax, hpre]
        linarith
      · rw [if_neg hcr]
        have hrc : r.start ≤ c := not_lt.mp hcr
        have hclip : clipLen c D r = max c r.«end» - c := by
          unfold clipLen
          rw [min_eq_left hre, max_eq_right hrc]
          rcases le_total r.«end» c with h | h
          · rw [max_eq_left h, max_eq_left (by linarith)]
            linarith
          · rw [max_eq_right h, max_eq_right (by linarith)]
        have hpre : totalLen ([] : List Region) = 0 := by simp [totalLen]
        rw [hclip, hpre]
        linarith
    · have hrD' : D < r.«end» := not_le.mp hre
      cases rest with
      | cons m rest' =>
        exfalso
        have h1 : r.«end» < m.start := inv_head_lt hinv m (by simp)
        have h2 : m.start ≤ D := hb m (by simp)
        linarith
      | nil =>
        have hnc : ¬ (max c r.«end» < D) := not_lt.mpr (by
          exact le_trans (le_of_lt hrD') (le_max_right _ _))
        simp only [keptGo, hnc, if_false, List.map_nil, List.sum_nil, add_zero,
          List.append_nil]
        by_cases hcr : c < r.start
        · rw [if_pos hcr]
          have hclip : clipLen c D r = D - r.start := by
            unfold clipLen
            rw [min_eq_right (le_of_lt hrD'), max_eq_left (le_of_lt hcr)]
            exact max_eq_right (by linarith)
          have hpre : totalLen [(⟨c, r.start⟩ : Region)] = r.start - c := by
            simp [totalLen]
          have hpre0 : totalLen ([] : List Region) = 0 := by simp [totalLen]
          rw [hclip, hpre, hpre0]
          linarith
        · rw [if_neg hcr]
          have hrc : r.start ≤ c := not_lt.mp hcr
          have hclip : clipLen c D r = D - c := by
            unfold clipLen
            rw [min_eq_right (le_of_lt hrD'), max_eq_right hrc]
            exact max_eq_right (by linarith)
          have hpre : totalLen ([] : List Region) = 0 := by simp [totalLen]
          rw [hclip, hpre]
          linarith

/-- Claim C2 counterexample: for the invariant-satisfying RegionSet
`[{2, 3}]` and duration `1`, the kept regions and the clipped deleted
regions do not partition `[0, 1)` — the claim fails when a deleted region
starts after the duration. -/
theorem kept_partition_cex :
    RegionInv [(⟨2, 3⟩ : Region)] ∧ (0 : ℚ) ≤ 1 ∧
      totalLen (getKeptRegions [⟨2, 3⟩] 1) + clipTotal 0 1 [⟨2, 3⟩] ≠ 1 := by
  refine ⟨regionInv_singleton _ (by decide), by norm_num, ?_⟩
  have h1 : getKeptRegions [(⟨2, 3⟩ : Region)] 1 = [⟨0, 2⟩] := by decide
  rw [h1]
  norm_num [totalLen, clipTotal, clipLen]

/-- Claim C2 amended: for every RegionSet `S` satisfying the sorted
non-overlapping invariant, every duration `D ≥ 0`, and provided every
region of `S` starts at or before `D`, the kept regions are pairwise
disjoint and sorted with `start < end`, and their total time plus the
total time of `S` clipped to `[0, D]` equals `D`. -/
theorem kept_partition (S : List Region) (D : ℚ) (hS : RegionInv S) (hD : 0 ≤ D)
    (hb : ∀ q ∈ S, q.start ≤ D) :
    RegionInv (getKeptRegions S D) ∧
      (getKeptRegions S D).Pairwise (fun a b : Region => a.«end» < b.start) ∧
      totalLen (getKeptRegions S D) + clipTotal 0 D S = D := by
  have hsort : sortBy regionLE S = S := sortBy_of_sorted (inv_pairwise_le hS)
  have hinv : RegionInv (getKeptRegions S D) := by
    unfold getKeptRegions
    rw [hsort]
    exact keptGo_inv S 0 hS.2
  refine ⟨hinv, inv_pairwise_gap hinv, ?_⟩
  have hsum := keptGo_sum S 0 hS hb (le_refl 0) hD
  unfold getKeptRegions
  rw [hsort]
  rw [hsum]
  ring

/-- Claim C2 witness: the partition identity at a concrete set and
duration. -/
theorem kept_partition_witness :
    RegionInv (getKeptRegions [(⟨1, 2⟩ : Region)] 3) ∧
      (getKeptRegions [(⟨1, 2⟩ : Region)] 3).Pairwise
        (fun a b : Region => a.«end» < b.start) ∧
      totalLen (getKeptRegions [(⟨1, 2⟩ : Region)] 3) + clipTotal 0 3 [⟨1, 2⟩] = 3 :=
  kept_partition [⟨1, 2⟩] 3 (regionInv_singleton _ (by decide)) (by decide) (by decide)

theorem jsSlice_length_le (l : List ℚ) (s L : ℤ) (hs : 0 ≤ s) (hL : 0 ≤ L) :
    ((jsSlice l s (s + L)).length : ℤ) ≤ L := by
  have key : jsSlice l s (s + L) = (l.drop (min s (l.length : ℤ)).toNat).take
      (min (s + L) (l.length : ℤ) - min s (l.length : ℤ)).toNat := by
    simp only [jsSlice]
    rw [if_neg (not_lt.mpr hs), if_neg (show ¬ s + L < 0 by push_neg; linarith)]
  rw [key]
  set f := min s ((l.length : ℕ) : ℤ) with hf
  set t := min (s + L) ((l.length : ℕ) : ℤ) with ht
  have h1 : ((l.drop f.toNat).take (t - f).toNat).length ≤ (t - f).toNat :=
    List.length_take_le _ _
  have h2 : t - f ≤ L := by
    rw [hf, ht]
    rcases le_total (s + L) ((l.length : ℕ) : ℤ) with h | h
    · rw [min_eq_left h, min_eq_left (by linarith)]
      linarith
    · rw [min_eq_right h]
      rcases le_total s ((l.length : ℕ) : ℤ) with h' | h'
      · rw [min_eq_left h']
        linarith
      · rw [min_eq_right h']
        linarith
  have h3 : (((l.drop f.toNat).take (t - f).toNat).length : ℤ) ≤ ((t - f).toNat : ℤ) := by
    exact_mod_cast h1
  have h4 : ((t - f).toNat : ℤ) = max (t - f) 0 := Int.toNat_eq_max _
  have h5 : max (t - f) 0 ≤ L := max_le h2 hL
  linarith

theorem setAt_some (target : List ℚ) (offset : ℤ) (src : List ℚ)
    (h1 : 0 ≤ offset) (h2 : offset + src.length ≤ target.length) :
    setAt target offset src =
      some (target.take offset.toNat ++ src ++
        target.drop (offset.toNat + src.length)) := by
  unfold setAt
  rw [if_pos ⟨h1, h2⟩]

theorem setAt_length (target : List ℚ) (offset : ℤ) (src : List ℚ) (out : List ℚ)
    (h : setAt target offset src = some out) : out.length = target.length := by
  unfold setAt at h
  split at h
  · rename_i hc
    have hout : out = target.take offset.toNat ++ src ++
        target.drop (offset.toNat + src.length) := by
      exact (Option.some.injEq _ _ ▸ h).symm
    rw [hout]
    simp only [List.length_append, List.length_take, List.length_drop]
    omega
  · cases h

theorem totalSamples_nonneg (rate : ℚ) (kept : List Region) (hrate : 0 ≤ rate)
    (hg : ∀ q ∈ kept, q.start ≤ q.«end») : 0 ≤ totalSamples rate kept := by
  unfold totalSamples
  apply List.sum_nonneg
  intro i hi
  rcases List.mem_map.mp hi with ⟨q, hq, rfl⟩
  unfold regionSamples sampleIndex
  have : q.start * rate ≤ q.«end» * rate :=
    mul_le_mul_of_nonneg_right (hg q hq) hrate
  have := Int.floor_le_floor this
  linarith

theorem regionSamples_nonneg (rate : ℚ) (q : Region) (hrate : 0 ≤ rate)
    (hg : q.start ≤ q.«end») : 0 ≤ regionSamples rate q := by
  unfold regionSamples sampleIndex
  have : q.start * rate ≤ q.«end» * rate := mul_le_mul_of_nonneg_right hg hrate
  have := Int.floor_le_floor this
  linarith

theorem copyLoop_some : ∀ (kept : List Region) (offset : ℤ) (out input : List ℚ)
    (rate : ℚ), 0 ≤ rate → (∀ q ∈ kept, 0 ≤ q.start ∧ q.start < q.«end») →
    0 ≤ offset → offset + totalSamples rate kept ≤ (out.length : ℤ) →
    ∃ res : ℤ × List ℚ, copyLoop input rate kept (offset, out) = some res ∧
      res.2.length = out.length := by
  intro kept
  induction kept with
  | nil =>
    intro offset out input rate _ _ _ _
    exact ⟨(offset, out), rfl, rfl⟩
  | cons q rest ih =>
    intro offset out input rate hrate hg hoff hbound
    have hgq := hg q (by simp)
    have hL : 0 ≤ regionSamples rate q :=
      regionSamples_nonneg rate q hrate (le_of_lt hgq.2)
    have hrest : 0 ≤ totalSamples rate rest :=
      totalSamples_nonneg rate rest hrate
        fun p hp => le_of_lt (hg p (List.mem_cons_of_mem _ hp)).2
    have htot : totalSamples rate (q :: rest) =
        regionSamples rate q + totalSamples rate rest := by
      simp [totalSamples]
    rw [htot] at hbound
    have hss : 0 ≤ sampleIndex rate q.start := by
      unfold sampleIndex
      exact Int.floor_nonneg.mpr (mul_nonneg hgq.1 hrate)
    by_cases hlt : sampleIndex rate q.start < (input.length : ℤ)
    · have hchunk : ((jsSlice input (sampleIndex rate q.start)
          (sampleIndex rate q.start + (sampleIndex rate q.«end» -
            sampleIndex rate q.start))).length : ℤ) ≤
          sampleIndex rate q.«end» - sampleIndex rate q.start := by
        apply jsSlice_length_le input _ _ hss
        unfold regionSamples at hL
        linarith
      set chunk := jsSlice input (sampleIndex rate q.start)
        (sampleIndex rate q.start + (sampleIndex rate q.«end» -
          sampleIndex rate q.start)) with hchunkdef
      have hfit : offset + (chunk.length : ℤ) ≤ (out.length : ℤ) := by
        unfold regionSamples at hbound
        linarith
      have hcopy : copyRegion input rate (offset, out) q =
          some (offset + (chunk.length : ℤ),
            out.take offset.toNat ++ chunk ++
              out.drop (offset.toNat + chunk.length)) := by
        unfold copyRegion
        rw [if_pos hlt]
        rw [if_pos hfit]
        rw [setAt_some out offset chunk hoff hfit]
        rfl
      have hlen2 : (out.take offset.toNat ++ chunk ++
          out.drop (offset.toNat + chunk.length)).length = out.length := by
        apply setAt_length out offset chunk
        exact setAt_some out offset chunk hoff hfit
      obtain ⟨res, hres, hreslen⟩ := ih (offset + chunk.length)
        (out.take offset.toNat ++ chunk ++ out.drop (offset.toNat + chunk.length))
        input rate hrate (fun p hp => hg p (List.mem_cons_of_mem _ hp))
        (by positivity)
        (by
          rw [hlen2]
          unfold regionSamples at hbound
          linarith)
      refine ⟨res, ?_, by rw [hreslen, hlen2]⟩
      simp only [copyLoop]
      rw [hcopy]
      exact hres
    · have hcopy : copyRegion input rate (offset, out) q = some (offset, out) := by
        unfold copyRegion
        rw [if_neg hlt]
      obtain ⟨res, hres, hreslen⟩ := ih offset out input rate hrate
        (fun p hp => hg p (List.mem_cons_of_mem _ hp)) hoff
        (by
          unfold regionSamples at hbound hL
          linarith)
      refine ⟨res, ?_, hreslen⟩
      simp only [copyLoop]
      rw [hcopy]
      exact hres

theorem exportChannel_some (rate : ℚ) (kept : List Region) (outLen : ℕ)
    (input : List ℚ) (hrate : 0 ≤ rate)
    (hg : ∀ q ∈ kept, 0 ≤ q.start ∧ q.start < q.«end»)
    (hbound : totalSamples rate kept ≤ (outLen : ℤ)) :
    ∃ o, exportChannel rate kept outLen input = some o ∧ o.length = outLen := by
  obtain ⟨res, hres, hreslen⟩ := copyLoop_some kept 0 (List.replicate outLen 0)
    input rate hrate hg (le_refl 0) (by simpa using hbound)
  refine ⟨res.2, ?_, by simpa using hreslen⟩
  unfold exportChannel
  rw [hres]
  rfl

theorem exportChannels_some (rate : ℚ) (kept : List Region) (outLen : ℕ) :
    ∀ (chs : List (List ℚ)),
    (∀ ch ∈ chs, ∃ o, exportChannel rate kept outLen ch = some o ∧ o.length = outLen) →
    ∃ outs, exportChannels rate kept outLen chs = some outs ∧
      outs.length = chs.length ∧ ∀ o ∈ outs, o.length = outLen := by
  intro chs
  induction chs with
  | nil =>
    intro _
    exact ⟨[], rfl, rfl, by simp⟩
  | cons ch rest ih =>
    intro h
    obtain ⟨o, ho, holen⟩ := h ch (by simp)
    obtain ⟨outs, houts, hlen, hall⟩ := ih fun c hc => h c (List.mem_cons_of_mem _ hc)
    refine ⟨o :: outs, ?_, by simp [hlen], ?_⟩
    · simp only [exportChannels]
      rw [ho, houts]
      rfl
    · intro p hp
      rcases List.mem_cons.mp hp with rfl | hp
      · exact holen
      · exact hall p hp

theorem export_zero_alloc_none (b : AudioBufferModel) (deleted : List Region)
    (h : totalSamples b.sampleRate (getKeptRegions deleted b.duration) ≤ 0) :
    exportAudio b deleted = none := by
  unfold exportAudio
  rw [if_pos h]

theorem totalSamples_nil (rate : ℚ) : totalSamples rate [] = 0 := by
  simp [totalSamples]

theorem demoBuffer_duration :
    (⟨1, 2, [[0, 0]]⟩ : AudioBufferModel).duration = 2 := by
  norm_num [AudioBufferModel.duration]

theorem demoBuffer_kept_nil :
    getKeptRegions [(⟨0, 2⟩ : Region)]
      (⟨1, 2, [[0, 0]]⟩ : AudioBufferModel).duration = [] := by
  rw [demoBuffer_duration]
  decide

theorem demoBuffer_export_none :
    exportAudio ⟨1, 2, [[0, 0]]⟩ [⟨0, 2⟩] = none := by
  apply export_zero_alloc_none
  rw [demoBuffer_kept_nil, totalSamples_nil]

/-- Claim C1 counterexample: the claim fails on a buffer whose whole
duration is deleted — the kept list is empty, `totalSamples` is 0, and
the `new AudioBuffer({length: 0, ...})` allocation throws
NotSupportedError, so `exportAudio` produces no output buffer at all
instead of an allocation that every copy stays inside. -/
theorem export_alloc_cex :
    (0 : ℚ) < (⟨1, 2, [[0, 0]]⟩ : AudioBufferModel).sampleRate ∧
      (⟨1, 2, [[0, 0]]⟩ : AudioBufferModel).WF ∧
      exportAudio ⟨1, 2, [[0, 0]]⟩ [⟨0, 2⟩] = none := by
  refine ⟨by decide, ?_, demoBuffer_export_none⟩
  intro ch hch
  rw [List.mem_singleton] at hch
  subst hch
  rfl

/-- Claim C1 amended: for every source buffer and every deleted-region
list whose kept regions contain at least one output sample
(`totalSamples > 0`, so the AudioBuffer allocation succeeds),
`exportAudio` allocates each channel's output with length equal to the
sum over the kept regions of `floor(end * sampleRate) - floor(start *
sampleRate)`, identically for every channel, and every sample copy stays
inside that allocation: the computation never aborts with a RangeError
(out-of-bounds `set`), the truncation guard notwithstanding. -/
theorem export_alloc_safe (b : AudioBufferModel) (deleted : List Region)
    (hrate : 0 < b.sampleRate) (_hwf : b.WF)
    (hpos : 0 < totalSamples b.sampleRate (getKeptRegions deleted b.duration)) :
    ∃ out, exportAudio b deleted = some out ∧
      out.length = b.channelData.length ∧
      ∀ ch ∈ out, (ch.length : ℤ) =
        totalSamples b.sampleRate (getKeptRegions deleted b.duration) := by
  have hrate' : 0 ≤ b.sampleRate := le_of_lt hrate
  have hg : ∀ q ∈ getKeptRegions deleted b.duration, 0 ≤ q.start ∧ q.start < q.«end» := by
    intro q hq
    unfold getKeptRegions at hq
    exact ⟨keptGo_lb _ _ q hq, keptGo_good _ _ q hq⟩
  have hts : 0 ≤ totalSamples b.sampleRate (getKeptRegions deleted b.duration) :=
    le_of_lt hpos
  have htoNat : ((totalSamples b.sampleRate
      (getKeptRegions deleted b.duration)).toNat : ℤ) =
      totalSamples b.sampleRate (getKeptRegions deleted b.duration) :=
    Int.toNat_of_nonneg hts
  obtain ⟨outs, houts, hlen, hall⟩ := exportChannels_some b.sampleRate
    (getKeptRegions deleted b.duration)
    (totalSamples b.sampleRate (getKeptRegions deleted b.duration)).toNat
    b.channelData
    (fun ch _ => exportChannel_some _ _ _ ch hrate' hg (le_of_eq htoNat.symm))
  refine ⟨outs, ?_, hlen, ?_⟩
  · unfold exportAudio
    rw [if_neg (not_le.mpr hpos)]
    exact houts
  · intro ch hch
    rw [hall ch hch]
    exact htoNat

/-- Claim C1 witness: a concrete export computation succeeds with the
predicted allocation. -/
theorem export_alloc_safe_witness :
    ∃ out, exportAudio ⟨1, 2, [[0, 0]]⟩ [] = some out ∧
      out.length = (⟨1, 2, [[0, 0]]⟩ : AudioBufferModel).channelData.length ∧
      ∀ ch ∈ out, (ch.length : ℤ) =
        totalSamples 1 (getKeptRegions []
          (⟨1, 2, [[0, 0]]⟩ : AudioBufferModel).duration) :=
  export_alloc_safe ⟨1, 2, [[0, 0]]⟩ [] (by decide)
    (by
      intro ch hch
      rw [List.mem_singleton] at hch
      subst hch
      rfl)
    (by
      rw [demoBuffer_duration]
      have hk : getKeptRegions [] (2 : ℚ) = [⟨0, 2⟩] := by decide
      rw [hk]
      norm_num [totalSamples, regionSamples, sampleIndex])

/-- Claim C7: the claim states the specified behaviour — an empty kept
list must yield a zero-length buffer as a valid result — but the code
fails it: with the whole duration deleted the kept list is empty,
`totalSamples` is 0, and `new AudioBuffer({length: 0, ...})` throws
NotSupportedError, so the real `exportAudio` raises instead of returning
a zero-length buffer. -/
theorem export_empty_kept_throws :
    getKeptRegions [(⟨0, 2⟩ : Region)]
        (⟨1, 2, [[0, 0]]⟩ : AudioBufferModel).duration = [] ∧
      exportAudio ⟨1, 2, [[0, 0]]⟩ [⟨0, 2⟩] = none :=
  ⟨demoBuffer_kept_nil, demoBuffer_export_none⟩

theorem clampSample_bounds (x : ℚ) : -1 ≤ clampSample x ∧ clampSample x ≤ 1 := by
  unfold clampSample
  exact ⟨le_max_left _ _, max_le (by norm_num) (min_le_left _ _)⟩

theorem truncQ_bounds (q : ℚ) (h1 : -32768 ≤ q) (h2 : q ≤ 32767) :
    -32768 ≤ truncQ q ∧ truncQ q ≤ 32767 := by
  unfold truncQ
  split
  · rename_i h
    constructor
    · have := Int.floor_nonneg.mpr h
      linarith
    · have hfl : ((⌊q⌋ : ℚ)) ≤ q := Int.floor_le q
      have : ((⌊q⌋ : ℚ)) ≤ 32767 := le_trans hfl h2
      exact_mod_cast this
  · rename_i h
    constructor
    · have hce : q ≤ ((⌈q⌉ : ℚ)) := Int.le_ceil q
      have : (-32768 : ℚ) ≤ ((⌈q⌉ : ℚ)) := le_trans h1 hce
      exact_mod_cast this
    · have : ⌈q⌉ ≤ (0 : ℤ) := Int.ceil_le.mpr (by push_cast; linarith)
      linarith

theorem toInt32_eq_truncQ (q : ℚ) (h1 : -32768 ≤ q) (h2 : q ≤ 32767) :
    toInt32 q = truncQ q := by
  obtain ⟨hb1, hb2⟩ := truncQ_bounds q h1 h2
  unfold toInt32
  omega

theorem int16_roundtrip (v : ℤ) (h1 : -32768 ≤ v) (h2 : v ≤ 32767) :
    int16ValueLE (int16BytesLE v) = v := by
  simp only [int16BytesLE, int16ValueLE, List.getD_cons_zero, List.getD_cons_succ]
  split <;> omega

theorem convertSample_bounds (x : ℚ) :
    -32768 ≤ convertSample x ∧ convertSample x ≤ 32767 := by
  obtain ⟨hb1, hb2⟩ := clampSample_bounds x
  unfold convertSample
  set s := clampSample x with hs
  by_cases h : 1 / 2 + s < 0
  · rw [if_pos h]
    rw [toInt32_eq_truncQ _ (by linarith) (by linarith)]
    exact truncQ_bounds _ (by linarith) (by linarith)
  · rw [if_neg h]
    rw [toInt32_eq_truncQ _ (by linarith) (by linarith)]
    exact truncQ_bounds _ (by linarith) (by linarith)

/-- Claim C6 counterexample: at input sample −1/4 (negative, but above
−1/2) the encoder scales by 32767 and stores −8191; the claim's rule
(negative scales by 32768) predicts −8192. -/
theorem wav_scale_cex :
    convertSample (-(1 / 4)) = -8191 ∧ specConvertSample (-(1 / 4)) = -8192 ∧
      convertSample (-(1 / 4)) ≠ specConvertSample (-(1 / 4)) := by
  have hc : clampSample (-(1 / 4)) = -(1 / 4) := by
    unfold clampSample
    rw [min_eq_right (by norm_num), max_eq_right (by norm_num)]
  have hmul : (-(1 / 4) : ℚ) * 32767 = -(32767 / 4) := by norm_num
  have hmul' : (-(1 / 4) : ℚ) * 32768 = -8192 := by norm_num
  have hceil : ⌈(-(32767 / 4) : ℚ)⌉ = -8191 := by
    rw [Int.ceil_eq_iff]
    constructor <;> norm_num
  have h1 : convertSample (-(1 / 4)) = -8191 := by
    unfold convertSample
    rw [hc, if_neg (by norm_num), hmul]
    unfold toInt32 truncQ
    rw [if_neg (by norm_num), hceil]
    decide
  have h2 : specConvertSample (-(1 / 4)) = -8192 := by
    unfold specConvertSample
    rw [hc, if_pos (by norm_num), hmul']
    unfold truncQ
    rw [if_neg (by norm_num)]
    have : ⌈(-8192 : ℚ)⌉ = -8192 := by
      rw [Int.ceil_eq_iff]
      constructor <;> norm_num
    exact this
  refine ⟨h1, h2, ?_⟩
  rw [h1, h2]
  decide

/-- Claim C6 amended: the encoder clamps each sample to `[-1, 1]`; a
clamped sample strictly below −1/2 is scaled by 32768 and one at or above
−1/2 by 32767 (the code's conditional is `0.5 + sample < 0`, not
`sample < 0`); the scaled value is truncated toward zero, and the stored
16-bit little-endian pair decodes back to exactly that integer. -/
theorem wav_scale_threshold (x : ℚ) :
    convertSample x =
      truncQ (clampSample x * (if clampSample x < -(1 / 2) then 32768 else 32767)) ∧
      int16ValueLE (int16BytesLE (convertSample x)) = convertSample x := by
  obtain ⟨hb1, hb2⟩ := clampSample_bounds x
  obtain ⟨hv1, hv2⟩ := convertSample_bounds x
  refine ⟨?_, int16_roundtrip _ hv1 hv2⟩
  unfold convertSample
  set s := clampSample x with hs
  by_cases h : s < -(1 / 2)
  · rw [if_pos (show 1 / 2 + s < 0 by linarith), if_pos h]
    exact toInt32_eq_truncQ _ (by linarith) (by linarith)
  · rw [if_neg (show ¬ (1 / 2 + s < 0) by push_neg at h ⊢; linarith), if_neg h]
    exact toInt32_eq_truncQ _ (by linarith) (by linarith)

theorem map_start_set (store : List Region) (i : ℕ) (e : ℚ) :
    (store.set i ⟨(store.getD i ⟨0, 0⟩).start, e⟩).map Region.start =
      store.map Region.start := by
  induction store generalizing i with
  | nil => rfl
  | cons a t ih =>
    cases i with
    | zero => simp [List.getD]
    | succ n =>
      simp only [List.set_cons_succ, List.map_cons, List.getD_cons_succ]
      rw [ih]

theorem sweepH_store_starts : ∀ (as : List ℕ) (store : List Region) (lastA : ℕ),
    ((sweepH store lastA as).2).map Region.start = store.map Region.start := by
  intro as
  induction as with
  | nil => intro store lastA; rfl
  | cons c cs ih =>
    intro store lastA
    simp only [sweepH]
    split
    · rw [ih]
      exact map_start_set store lastA _
    · exact ih store c

theorem sweepListH_starts (sa : List ℕ) (store : List Region) :
    ((sweepListH store sa).2).map Region.start = store.map Region.start := by
  cases sa with
  | nil => rfl
  | cons a as => exact sweepH_store_starts as store a

/-- Claim C8 counterexample: `mergeRegions` mutates an input region object
in place.  Merging `{0.5..2}`-style overlap (here `{1, 2}` touching
`{0, 1}`) overwrites the caller's region `{0, 1}` to `{0, 2}` in the
store, so the inputs do not keep their original `end` values. -/
theorem merge_mutates_input :
    (mergeRegionsAlloc [⟨0, 1⟩] ⟨1, 2⟩).2 = [⟨0, 2⟩, ⟨1, 2⟩] ∧
      ((mergeRegionsAlloc [⟨0, 1⟩] ⟨1, 2⟩).2).take 1 ≠ [(⟨0, 1⟩ : Region)] := by
  constructor
  · decide
  · decide

/-- Claim C8 amended: `mergeRegions` never adds or removes region objects
(the final store holds exactly the input regions followed by the
candidate) and never modifies any region's `start` value; but overlap
coalescing may overwrite the `end` field of an input region object in
place, as the counterexample shows, so input element values are not
always preserved. -/
theorem merge_alloc_preserves (S : List Region) (r : Region) :
    ((mergeRegionsAlloc S r).2).map Region.start = (S ++ [r]).map Region.start ∧
      ((mergeRegionsAlloc S r).2).length = S.length + 1 := by
  have hstarts : ((mergeRegionsAlloc S r).2).map Region.start =
      (S ++ [r]).map Region.start := sweepListH_starts _ _
  refine ⟨hstarts, ?_⟩
  have h := congrArg List.length hstarts
  simpa using h

/-- Claim C10 witness: splitting a concrete region at an interior point. -/
theorem subtract_degenerate_splits_witness :
    (∃ pre post, subtractRegion [(⟨0, 2⟩ : Region)] ⟨1, 1⟩ =
        pre ++ ⟨0, 1⟩ :: ⟨1, 2⟩ :: post) ∧
      ¬ RegionInv (subtractRegion [(⟨0, 2⟩ : Region)] ⟨1, 1⟩) :=
  subtract_degenerate_splits [⟨0, 2⟩] ⟨0, 2⟩ 1 (by decide) (by decide) (by decide)

end GapGone
